import Mathlib

/-!
Shallow embedding of the serveit HTTP file server (src/main.rs): the request
handler serve_rel_path, the directory renderer list_dir, the HTML escaping
helper html_escape, and byte-level models of the urlencoding crate's
encode/decode and of path joining. Strings are represented by their UTF-8
code units as List Nat; the filesystem and the MIME table are abstract
parameters, mirroring the spec's treatment of them as external collaborators.
-/

namespace Serveit

/-- UTF-8 code units of an ASCII string literal. All literals in this file are
ASCII, so codepoints and bytes coincide. -/
def ascii (s : String) : List Nat := s.toList.map Char.toNat

/-! ## The urlencoding crate: percent decoding and encoding (byte level) -/

/-- Value of an ASCII hexadecimal digit, as in the crate's from_hex_digit:
0-9, A-F and a-f are accepted. -/
def fromHexDigit (b : Nat) : Option Nat :=
  if 48 ≤ b ∧ b ≤ 57 then some (b - 48)
  else if 65 ≤ b ∧ b ≤ 70 then some (b - 55)
  else if 97 ≤ b ∧ b ≤ 102 then some (b - 87)
  else none

/-- The loop of the crate's decode_binary: a percent sign followed by two hex
digits becomes the corresponding byte; a malformed sequence is passed through
literally, with scanning resuming after the bytes already emitted, exactly as
the crate does. Byte 37 is the percent sign. The first argument only counts
steps so that the recursion is structural; each step consumes at least one
byte, so any count at least the input length computes the full decoding
(decodeBinaryGo_congr below). -/
def decodeBinaryGo : Nat → List Nat → List Nat
  | _, [] => []
  | 0, l => l
  | fuel+1, b :: rest =>
    if b = 37 then
      match rest with
      | [] => [37]
      | [f] => [37, f]
      | f :: s :: rest2 =>
        match fromHexDigit f with
        | none => 37 :: decodeBinaryGo fuel rest
        | some fv =>
          match fromHexDigit s with
          | none => 37 :: f :: decodeBinaryGo fuel (s :: rest2)
          | some sv => (16 * fv + sv) :: decodeBinaryGo fuel rest2
    else b :: decodeBinaryGo fuel rest

/-- The crate's decode_binary. -/
def decodeBinary (l : List Nat) : List Nat := decodeBinaryGo l.length l

/-- State of the UTF-8 validation automaton: how many continuation bytes are
still expected, and the admissible range for the next one (the ranges after
the first continuation byte are always 128 to 191). -/
structure Utf8State where
  need : Nat
  lo : Nat
  hi : Nat
deriving DecidableEq

/-- One byte of UTF-8 validation, as performed by Rust's String::from_utf8:
the lead-byte ranges reject overlong forms, surrogates (0xED restricts the
next byte to at most 0x9F) and values above U+10FFFF (lead bytes above 0xF4,
and 0xF4 restricts the next byte to at most 0x8F). -/
def utf8Step (st : Utf8State) (b : Nat) : Option Utf8State :=
  if st.need = 0 then
    if b ≤ 127 then some ⟨0, 0, 0⟩
    else if 194 ≤ b ∧ b ≤ 223 then some ⟨1, 128, 191⟩
    else if b = 224 then some ⟨2, 160, 191⟩
    else if 225 ≤ b ∧ b ≤ 236 then some ⟨2, 128, 191⟩
    else if b = 237 then some ⟨2, 128, 159⟩
    else if 238 ≤ b ∧ b ≤ 239 then some ⟨2, 128, 191⟩
    else if b = 240 then some ⟨3, 144, 191⟩
    else if 241 ≤ b ∧ b ≤ 243 then some ⟨3, 128, 191⟩
    else if b = 244 then some ⟨3, 128, 143⟩
    else none
  else
    if st.lo ≤ b ∧ b ≤ st.hi then some ⟨st.need - 1, 128, 191⟩
    else none

/-- Run the validation automaton over a byte string. -/
def utf8Run (st : Utf8State) : List Nat → Option Utf8State
  | [] => some st
  | b :: rest =>
    match utf8Step st b with
    | none => none
    | some st2 => utf8Run st2 rest

/-- Validity of a byte string as UTF-8, as checked by Rust's
String::from_utf8: the automaton accepts every byte and no sequence is left
incomplete at the end. -/
def utf8Valid (l : List Nat) : Bool :=
  match utf8Run ⟨0, 0, 0⟩ l with
  | some st => st.need = 0
  | none => false

/-- The crate's decode on a &str: when no percent sign occurs the input is
returned borrowed with no further check; otherwise the percent-decoded bytes
are returned only when they are valid UTF-8, and decoding fails otherwise. -/
def urldecodeBytes (data : List Nat) : Option (List Nat) :=
  if 37 ∈ data then
    if utf8Valid (decodeBinary data) then some (decodeBinary data) else none
  else some data

/-- Unreserved bytes that the crate's encode leaves verbatim: ASCII
alphanumerics and minus, dot, underscore, tilde. -/
def isUnreserved (b : Nat) : Bool :=
  (65 ≤ b && b ≤ 90) || (97 ≤ b && b ≤ 122) || (48 ≤ b && b ≤ 57) ||
  b == 45 || b == 46 || b == 95 || b == 126

/-- Uppercase hexadecimal digit of a value below 16, as emitted by the
crate's encode. -/
def toHexUpper (n : Nat) : Nat := if n < 10 then 48 + n else 55 + n

/-- The crate's encode: every byte outside the unreserved set becomes a
percent sign followed by two uppercase hex digits. -/
def urlencodeBytes : List Nat → List Nat
  | [] => []
  | b :: rest =>
    (if isUnreserved b then [b] else [37, toHexUpper (b / 16), toHexUpper (b % 16)])
      ++ urlencodeBytes rest

/-- A byte string contains invalid percent-encoding when some percent sign is
not followed by two hexadecimal digits. This predicate renders the claim's
words; it is not part of the program. -/
def hasInvalidPercent : List Nat → Bool
  | [] => false
  | 37 :: f :: s :: rest =>
    if (fromHexDigit f).isSome && (fromHexDigit s).isSome then hasInvalidPercent rest else true
  | 37 :: _ => true
  | _ :: rest => hasInvalidPercent rest

/-! ## html_escape (src/main.rs lines 146-152) -/

/-- Rust str::replace of a single ASCII character by a string, on UTF-8 code
units: ASCII bytes never occur inside a multi-byte sequence, so the char
replacement of the source is exactly this per-byte replacement. -/
def replaceByte (l : List Nat) (c : Nat) (r : List Nat) : List Nat :=
  l.flatMap (fun b => if b = c then r else [b])

/-- html_escape from the source: five sequential replacements, ampersand
first. Bytes: 38 is the ampersand, 60 and 62 the angle brackets, 34 the
double quote, 39 the single quote. -/
def html_escape (s : List Nat) : List Nat :=
  replaceByte (replaceByte (replaceByte (replaceByte
    (replaceByte s 38 (ascii "&amp;"))
    60 (ascii "&lt;"))
    62 (ascii "&gt;"))
    34 (ascii "&quot;"))
    39 (ascii "&#39;")

/-- Per-byte escaping map following the spec's words: each of the five
HTML-significant characters becomes its entity, every other byte stays. Used
to compare the sequential replacements of the source against the intended
simultaneous escaping. -/
def escapeByteSpec (b : Nat) : List Nat :=
  if b = 38 then ascii "&amp;"
  else if b = 60 then ascii "&lt;"
  else if b = 62 then ascii "&gt;"
  else if b = 34 then ascii "&quot;"
  else if b = 39 then ascii "&#39;"
  else [b]

/-- A byte string is well escaped when it contains no raw angle bracket or
quote at all and every ampersand starts one of the five entities. -/
def wellEscaped : List Nat → Bool
  | [] => true
  | b :: rest =>
    if b = 60 ∨ b = 62 ∨ b = 34 ∨ b = 39 then false
    else if b = 38 then
      match rest with
      | 97 :: 109 :: 112 :: 59 :: r => wellEscaped r
      | 108 :: 116 :: 59 :: r => wellEscaped r
      | 103 :: 116 :: 59 :: r => wellEscaped r
      | 113 :: 117 :: 111 :: 116 :: 59 :: r => wellEscaped r
      | 35 :: 51 :: 57 :: 59 :: r => wellEscaped r
      | _ => false
    else wellEscaped rest

/-- Left inverse of the per-byte escaping map: folds each of the five
entities back to the character it encodes, keeps every other byte, and stops
at an ampersand that starts no entity (which never occurs in an escaped
string). Spec-side helper used to show that escaping is injective. -/
def unescapeSpec : List Nat → List Nat
  | [] => []
  | b :: rest =>
    if b = 38 then
      match rest with
      | 97 :: 109 :: 112 :: 59 :: r => 38 :: unescapeSpec r
      | 108 :: 116 :: 59 :: r => 60 :: unescapeSpec r
      | 103 :: 116 :: 59 :: r => 62 :: unescapeSpec r
      | 113 :: 117 :: 111 :: 116 :: 59 :: r => 34 :: unescapeSpec r
      | 35 :: 51 :: 57 :: 59 :: r => 39 :: unescapeSpec r
      | r => 38 :: r
    else b :: unescapeSpec rest

/-! ## Byte-wise lexicographic order (Rust String cmp) -/

/-- Strict byte-wise lexicographic order on byte strings, the order induced
by Rust's cmp on strings. -/
def lexLt : List Nat → List Nat → Bool
  | [], [] => false
  | [], _ :: _ => true
  | _ :: _, [] => false
  | a :: as, b :: bs => a < b || (a == b && lexLt as bs)

/-- Reflexive closure of lexLt. -/
def lexLe (x y : List Nat) : Bool := lexLt x y || x == y

/-! ## Filesystem and MIME models -/

/-- Result of a metadata query: the only attribute the handler consults is
whether the target is a directory. -/
structure Metadata where
  is_dir : Bool
deriving DecidableEq

/-- One entry yielded by directory enumeration: its name (after lossy
conversion, hence a UTF-8 string) and its file type, none when the type
query failed. -/
structure FsDirEntry where
  file_name : List Nat
  file_type : Option Bool
deriving DecidableEq

/-- Abstract filesystem: metadata query, whole-file read, directory
enumeration (in the order the filesystem yields entries). A none result
models the corresponding Err. -/
structure FS where
  metadata : List Nat → Option Metadata
  read : List Nat → Option (List Nat)
  read_dir : List Nat → Option (List FsDirEntry)

/-- Server state: the canonicalized root path. -/
structure AppState where
  root : List Nat

/-- Rust Path::extension of the last path component: the part of the file
name after its last dot, none when there is no file name, no dot, or the
only dot is leading. Byte 47 is the slash, byte 46 the dot. -/
def splitSep : List Nat → List (List Nat)
  | [] => [[]]
  | b :: rest =>
    if b = 47 then [] :: splitSep rest
    else
      match splitSep rest with
      | s :: ss => (b :: s) :: ss
      | [] => [[b]]

/-- Rust Path::file_name: the last normal component, none when the path ends
in a dot-dot component or has no normal component. -/
def fileName (p : List Nat) : Option (List Nat) :=
  match ((splitSep p).filter (fun s => s ≠ [] && s ≠ [46])).getLast? with
  | some seg => if seg = ascii ".." then none else some seg
  | none => none

/-- Split a file name at its last dot, when it has one. -/
def afterLastDot (f : List Nat) : Option (List Nat × List Nat) :=
  if 46 ∈ f then
    let after := (f.reverse.takeWhile (fun b => b ≠ 46)).reverse
    some (f.take (f.length - after.length - 1), after)
  else none

/-- Rust Path::extension. -/
def extension (p : List Nat) : Option (List Nat) :=
  match fileName p with
  | none => none
  | some f =>
    match afterLastDot f with
    | some (before, after) => if before = [] then none else some after
    | none => none

/-- mime_guess::from_path followed by first: the external MIME table db is
consulted with the path's extension; no extension or no mapping gives no
guess. -/
def from_path (db : List Nat → Option (List Nat)) (p : List Nat) : Option (List Nat) :=
  match extension p with
  | some e => db e
  | none => none

/-- MimeGuess::first_or_octet_stream: the first guess, or
application/octet-stream when there is none. -/
def first_or_octet_stream (g : Option (List Nat)) : List Nat :=
  g.getD (ascii "application/octet-stream")

/-! ## Paths: join and component-wise equality -/

/-- Rust PathBuf::join of the root and a request path: an absolute argument
replaces the root; otherwise a separator is inserted unless the root is
empty or already ends in one. No segment is filtered or rewritten. -/
def pathJoin (root rel : List Nat) : List Nat :=
  if rel.head? = some 47 then rel
  else if root = [] ∨ root.getLast? = some 47 then root ++ rel
  else root ++ 47 :: rel

/-- Rust Path components, restricted to what Path equality needs here: an
absolute marker plus the normal segments, with empty and dot segments
dropped (a leading dot segment of a relative path is kept, as CurDir). -/
def components (p : List Nat) : List (List Nat) :=
  let segs := (splitSep p).filter (fun s => s ≠ [] && s ≠ [46])
  if p.head? = some 47 then ascii "/" :: segs
  else
    match (splitSep p).filter (fun s => s ≠ []) with
    | s :: _ => if s = [46] then [46] :: segs else segs
    | [] => segs

/-- Rust Path equality, which compares component sequences. -/
def pathEq (a b : List Nat) : Bool := components a = components b

/-! ## Responses -/

/-- The parts of an axum Response the handler determines: status code,
content type header, body bytes. -/
structure Response where
  status : Nat
  content_type : List Nat
  body : List Nat
deriving DecidableEq

/-- Content type attached by axum to a plain text response part. -/
def textPlainCT : List Nat := ascii "text/plain; charset=utf-8"

/-- Content type attached by axum to an Html response part. -/
def textHtmlCT : List Nat := ascii "text/html; charset=utf-8"

/-- Response for a request whose percent-decoding fails (line 75). -/
def badRequestResp : Response :=
  { status := 400, content_type := textPlainCT, body := ascii "Bad URL encoding" }

/-- Response when the metadata query fails (line 82). -/
def notFoundResp : Response :=
  { status := 404, content_type := textPlainCT, body := ascii "Not found" }

/-- Response when a file read fails (line 98). -/
def cannotReadFileResp : Response :=
  { status := 403, content_type := textPlainCT, body := ascii "Cannot read file" }

/-- Response when directory enumeration fails (line 105). -/
def cannotReadDirResp : Response :=
  { status := 403, content_type := textPlainCT, body := ascii "Cannot read directory" }

/-! ## Directory listing (list_dir, lines 102-144) -/

/-- Lines 110-112: the entry's name, and is_dir with a failed type query
treated as false. -/
def processEntry (e : FsDirEntry) : List Nat × Bool :=
  (e.file_name, e.file_type.getD false)

/-- Comparator of line 114: byte-wise comparison of the names only. -/
def itemLe (a b : List Nat × Bool) : Bool := lexLe a.1 b.1

/-- Insert an item into an already sorted list, after every item whose name
is strictly smaller and before the first other item, so that an item coming
earlier in the input stays before later items with an equal name. -/
def insertItem (a : List Nat × Bool) : List (List Nat × Bool) → List (List Nat × Bool)
  | [] => [a]
  | b :: bs => if lexLt b.1 a.1 then b :: insertItem a bs else a :: b :: bs

/-- The sort of line 114. Rust's sort_by is a stable sort under the name
comparator; a stable insertion sort is used here, which produces the same
output as any stable sort for the same comparator. -/
def sortItems : List (List Nat × Bool) → List (List Nat × Bool)
  | [] => []
  | a :: as => insertItem a (sortItems as)

/-- Display text of an entry (line 128): directories get a trailing slash. -/
def entryDisplay (it : List Nat × Bool) : List Nat :=
  if it.2 then it.1 ++ ascii "/" else it.1

/-- Href of an entry (lines 129-133): the percent-encoded name, with a
trailing slash for directories. -/
def entryHref (it : List Nat × Bool) : List Nat :=
  if it.2 then urlencodeBytes it.1 ++ ascii "/" else urlencodeBytes it.1

/-- One list item as formatted on lines 135-139. -/
def renderItem (it : List Nat × Bool) : List Nat :=
  ascii "<li><a href=\x22" ++ entryHref it ++ ascii "\x22>"
    ++ html_escape (entryDisplay it) ++ ascii "</a></li>"

/-- The up link pushed on line 124. -/
def upItem : List Nat := ascii "<li><a href=\x22../\x22>../</a></li>"

/-- The fixed pieces pushed on lines 117-121, in push order. -/
def headerPieces : List (List Nat) :=
  [ascii "<!doctype html><html><head><meta charset=\x27utf-8\x27>",
   ascii "<title>Index</title>",
   ascii "<style>body\x7bfont-family:system-ui,Arial,sans-serif\x7d a\x7btext-decoration:none\x7d</style>",
   ascii "</head><body>",
   ascii "<h1>Index</h1><ul>"]

/-- The closing piece pushed on line 142. -/
def closePiece : List Nat := ascii "</ul></body></html>"

/-- Every string pushed onto the html buffer, in push order: the fixed
preamble, the up link when the listed directory is not the root (line 123),
one item per entry, the closing tags. The final document is the
concatenation of these pieces. -/
def listPieces (root dir : List Nat) (items : List (List Nat × Bool)) : List (List Nat) :=
  headerPieces
    ++ (if pathEq dir root then [] else [upItem])
    ++ items.map renderItem
    ++ [closePiece]

/-- list_dir: enumerate, process and sort the entries, then render the
document and respond 200 as Html. -/
def list_dir (fs : FS) (root dir : List Nat) : Response :=
  match fs.read_dir dir with
  | none => cannotReadDirResp
  | some es =>
    { status := 200,
      content_type := textHtmlCT,
      body := (listPieces root dir (sortItems (es.map processEntry))).flatten }

/-! ## The request handler (serve_rel_path, lines 71-100) -/

/-- Lines 80-99: the part of the handler after the candidate path has been
computed: metadata query, then directory listing or file read. -/
def serveCandidate (db : List Nat → Option (List Nat)) (fs : FS)
    (root cand : List Nat) : Response :=
  match fs.metadata cand with
  | none => notFoundResp
  | some m =>
    if m.is_dir then list_dir fs root cand
    else
      match fs.read cand with
      | some bytes =>
        { status := 200,
          content_type := first_or_octet_stream (from_path db cand),
          body := bytes }
      | none => cannotReadFileResp

/-- serve_rel_path: percent-decode the raw path segment, fail with 400 when
decoding fails, otherwise join onto the root and continue. -/
def serve_rel_path (db : List Nat → Option (List Nat)) (st : AppState) (fs : FS)
    (rel : List Nat) : Response :=
  match urldecodeBytes rel with
  | none => badRequestResp
  | some decoded => serveCandidate db fs st.root (pathJoin st.root decoded)

/-- serve_root (line 60-62): the handler applied to the empty segment. -/
def serve_root (db : List Nat → Option (List Nat)) (st : AppState) (fs : FS) : Response :=
  serve_rel_path db st fs []

/-! ## Concrete fixtures used by the witnesses -/

/-- A small MIME table: txt maps to text/plain, nothing else is known. -/
def db0 : List Nat → Option (List Nat) :=
  fun e => if e = ascii "txt" then some (ascii "text/plain") else none

/-- A server rooted at /srv. -/
def st0 : AppState := ⟨ascii "/srv"⟩

/-- A concrete filesystem: a readable text file, a readable file with an
unknown extension, an unreadable file, a subdirectory with one file and one
entry of undetermined type, and a directory that cannot be enumerated. -/
def fs0 : FS :=
  { metadata := fun p =>
      if p = ascii "/srv/" then some ⟨true⟩
      else if p = ascii "/srv/a.txt" then some ⟨false⟩
      else if p = ascii "/srv/blob.xyz" then some ⟨false⟩
      else if p = ascii "/srv/locked.txt" then some ⟨false⟩
      else if p = ascii "/srv/sub" then some ⟨true⟩
      else if p = ascii "/srv/ndir" then some ⟨true⟩
      else none,
    read := fun p =>
      if p = ascii "/srv/a.txt" then some (ascii "hi")
      else if p = ascii "/srv/blob.xyz" then some [0, 255, 1]
      else none,
    read_dir := fun p =>
      if p = ascii "/srv/" then
        some [⟨ascii "sub", some true⟩, ⟨ascii "a.txt", some false⟩,
              ⟨ascii "blob.xyz", some false⟩, ⟨ascii "locked.txt", some false⟩,
              ⟨ascii "ndir", some true⟩]
      else if p = ascii "/srv/sub" then
        some [⟨ascii "b.txt", some false⟩, ⟨ascii "mystery", none⟩]
      else none }

/-- fs0 with the root directory enumerated in a different order. -/
def fs1 : FS :=
  { metadata := fs0.metadata,
    read := fs0.read,
    read_dir := fun p =>
      if p = ascii "/srv/" then
        some [⟨ascii "ndir", some true⟩, ⟨ascii "locked.txt", some false⟩,
              ⟨ascii "blob.xyz", some false⟩, ⟨ascii "a.txt", some false⟩,
              ⟨ascii "sub", some true⟩]
      else fs0.read_dir p }

end Serveit

namespace Serveit

/-! ## Helper lemmas about the decoder -/

theorem decodeBinaryGo_succ_cons (fuel b : Nat) (rest : List Nat) :
    decodeBinaryGo (fuel+1) (b :: rest) =
      (if b = 37 then
        match rest with
        | [] => [37]
        | [f] => [37, f]
        | f :: s :: rest2 =>
          match fromHexDigit f with
          | none => 37 :: decodeBinaryGo fuel rest
          | some fv =>
            match fromHexDigit s with
            | none => 37 :: f :: decodeBinaryGo fuel (s :: rest2)
            | some sv => (16 * fv + sv) :: decodeBinaryGo fuel rest2
      else b :: decodeBinaryGo fuel rest) := rfl

theorem decodeBinaryGo_congr : ∀ (f1 f2 : Nat) (l : List Nat),
    l.length ≤ f1 → l.length ≤ f2 → decodeBinaryGo f1 l = decodeBinaryGo f2 l := by
  intro f1
  induction f1 with
  | zero =>
    intro f2 l h1 _
    have : l = [] := List.eq_nil_of_length_eq_zero (Nat.le_zero.mp h1)
    subst this
    cases f2 <;> rfl
  | succ f1 ih =>
    intro f2 l h1 h2
    cases l with
    | nil => cases f2 <;> rfl
    | cons b rest =>
      cases f2 with
      | zero => simp at h2
      | succ f2 =>
        simp only [List.length_cons, Nat.succ_le_succ_iff] at h1 h2
        rw [decodeBinaryGo_succ_cons, decodeBinaryGo_succ_cons]
        by_cases hb : b = 37
        · rw [if_pos hb, if_pos hb]
          cases rest with
          | nil => rfl
          | cons f rest1 =>
            cases rest1 with
            | nil => rfl
            | cons s rest2 =>
              cases hf : fromHexDigit f with
              | none =>
                simp only [hf]
                rw [ih f2 (f :: s :: rest2) h1 h2]
              | some fv =>
                cases hs : fromHexDigit s with
                | none =>
                  have hl1 : (s :: rest2).length ≤ f1 := by simp at h1 ⊢; omega
                  have hl2 : (s :: rest2).length ≤ f2 := by simp at h2 ⊢; omega
                  simp only [hf, hs]
                  rw [ih f2 (s :: rest2) hl1 hl2]
                | some sv =>
                  have hl1 : rest2.length ≤ f1 := by simp at h1; omega
                  have hl2 : rest2.length ≤ f2 := by simp at h2; omega
                  simp only [hf, hs]
                  rw [ih f2 rest2 hl1 hl2]
        · rw [if_neg hb, if_neg hb]
          rw [ih f2 rest h1 h2]

theorem decodeBinary_cons_lit (b : Nat) (rest : List Nat) (hb : b ≠ 37) :
    decodeBinary (b :: rest) = b :: decodeBinary rest := by
  unfold decodeBinary
  simp only [List.length_cons]
  rw [decodeBinaryGo_succ_cons, if_neg hb]

theorem decodeBinary_hexpair (f s fv sv : Nat) (rest : List Nat)
    (hf : fromHexDigit f = some fv) (hs : fromHexDigit s = some sv) :
    decodeBinary (37 :: f :: s :: rest) = (16 * fv + sv) :: decodeBinary rest := by
  unfold decodeBinary
  simp only [List.length_cons]
  rw [decodeBinaryGo_succ_cons, if_pos rfl]
  simp only [hf, hs]
  rw [decodeBinaryGo_congr (rest.length + 1 + 1) rest.length rest (by omega) (le_refl _)]

/-! ## Encoder lemmas and the decode-encode round trip -/

theorem decodeBinary_nil : decodeBinary [] = [] := rfl

theorem isUnreserved_ne_pct (b : Nat) (h : isUnreserved b = true) : b ≠ 37 := by
  intro heq
  subst heq
  simp [isUnreserved] at h

theorem fromHexDigit_toHexUpper (n : Nat) (h : n < 16) :
    fromHexDigit (toHexUpper n) = some n := by
  unfold toHexUpper fromHexDigit
  split_ifs <;> (try congr 1) <;> omega

theorem decodeBinary_encode_append (n : List Nat) (rest : List Nat)
    (hn : ∀ b ∈ n, b < 256) :
    decodeBinary (urlencodeBytes n ++ rest) = n ++ decodeBinary rest := by
  induction n with
  | nil => simp [urlencodeBytes]
  | cons b bs ih =>
    have hb : b < 256 := hn b (by simp)
    have hbs : ∀ x ∈ bs, x < 256 := fun x hx => hn x (by simp [hx])
    rw [urlencodeBytes]
    by_cases hu : isUnreserved b
    · rw [if_pos hu]
      simp only [List.append_assoc, List.cons_append, List.nil_append]
      rw [decodeBinary_cons_lit b _ (isUnreserved_ne_pct b hu), ih hbs]
    · rw [if_neg hu]
      simp only [List.append_assoc, List.cons_append, List.nil_append]
      rw [decodeBinary_hexpair (toHexUpper (b / 16)) (toHexUpper (b % 16)) (b / 16) (b % 16) _
        (fromHexDigit_toHexUpper (b / 16) (by omega)) (fromHexDigit_toHexUpper (b % 16) (by omega))]
      rw [ih hbs]
      have hbv : 16 * (b / 16) + b % 16 = b := by omega
      rw [hbv]

theorem urlencode_eq_self_of_no_pct (n : List Nat) (h : 37 ∉ urlencodeBytes n) :
    urlencodeBytes n = n := by
  induction n with
  | nil => rfl
  | cons b bs ih =>
    rw [urlencodeBytes] at h ⊢
    by_cases hu : isUnreserved b
    · rw [if_pos hu] at h ⊢
      simp only [List.singleton_append, List.mem_cons, not_or] at h
      rw [ih h.2]
      rfl
    · rw [if_neg hu] at h
      simp at h

theorem utf8Run_append (b2 : List Nat) :
    ∀ (a : List Nat) (st : Utf8State),
      utf8Run st (a ++ b2) =
        match utf8Run st a with
        | none => none
        | some st2 => utf8Run st2 b2 := by
  intro a
  induction a with
  | nil => intro st; rfl
  | cons b rest ih =>
    intro st
    rw [List.cons_append, utf8Run, utf8Run]
    cases utf8Step st b with
    | none => rfl
    | some st2 => exact ih st2

theorem utf8Step_of_need_zero (st st2 : Utf8State) (h : st.need = 0)
    (h2 : st2.need = 0) (b : Nat) : utf8Step st b = utf8Step st2 b := by
  unfold utf8Step
  rw [if_pos h, if_pos h2]

theorem utf8Run_need_of_need_zero (st st2 : Utf8State) (h : st.need = 0)
    (h2 : st2.need = 0) :
    ∀ l : List Nat, (utf8Run st l).map Utf8State.need = (utf8Run st2 l).map Utf8State.need := by
  intro l
  cases l with
  | nil => simp [utf8Run, h, h2]
  | cons b rest =>
    rw [utf8Run, utf8Run, utf8Step_of_need_zero st st2 h h2 b]

theorem utf8Valid_append (a b2 : List Nat) (ha : utf8Valid a = true)
    (hb : utf8Valid b2 = true) : utf8Valid (a ++ b2) = true := by
  unfold utf8Valid at ha hb ⊢
  rw [utf8Run_append b2 a ⟨0, 0, 0⟩]
  cases hra : utf8Run ⟨0, 0, 0⟩ a with
  | none => rw [hra] at ha; simp at ha
  | some stA =>
    rw [hra] at ha
    simp only [decide_eq_true_eq] at ha
    have hneed := utf8Run_need_of_need_zero stA ⟨0, 0, 0⟩ ha rfl b2
    cases hrb : utf8Run ⟨0, 0, 0⟩ b2 with
    | none => rw [hrb] at hb; simp at hb
    | some stB =>
      rw [hrb] at hb hneed
      simp only [decide_eq_true_eq] at hb
      cases hrab : utf8Run stA b2 with
      | none => rw [hrab] at hneed; simp at hneed
      | some stC =>
        rw [hrab] at hneed
        simp at hneed
        simp [hrab, hneed, hb]

theorem urldecode_urlencode (n : List Nat) (hv : utf8Valid n = true)
    (hn : ∀ b ∈ n, b < 256) : urldecodeBytes (urlencodeBytes n) = some n := by
  have hd : decodeBinary (urlencodeBytes n) = n := by
    have h := decodeBinary_encode_append n [] hn
    simpa [decodeBinary_nil] using h
  unfold urldecodeBytes
  by_cases hp : 37 ∈ urlencodeBytes n
  · rw [if_pos hp, hd, if_pos hv]
  · rw [if_neg hp, urlencode_eq_self_of_no_pct n hp]

theorem urldecode_urlencode_slash (n : List Nat) (hv : utf8Valid n = true)
    (hn : ∀ b ∈ n, b < 256) :
    urldecodeBytes (urlencodeBytes n ++ ascii "/") = some (n ++ ascii "/") := by
  have hd : decodeBinary (urlencodeBytes n ++ ascii "/") = n ++ ascii "/" := by
    rw [decodeBinary_encode_append n (ascii "/") hn]
    rfl
  unfold urldecodeBytes
  by_cases hp : 37 ∈ urlencodeBytes n ++ ascii "/"
  · rw [if_pos hp, hd]
    rw [if_pos (utf8Valid_append n (ascii "/") hv (by decide))]
  · rw [if_neg hp]
    have hp2 : 37 ∉ urlencodeBytes n := by
      intro hmem
      exact hp (by simp [hmem])
    rw [urlencode_eq_self_of_no_pct n hp2]

/-! ## Claim theorems about the request handler -/

/-- C1: every request that decodes and resolves to a regular file whose bytes
can be read is answered with status 200, a content type guessed from the
file's extension (application/octet-stream when the table knows no mapping
or there is no extension), and a body byte-for-byte equal to the file's
contents. -/
theorem c1_file_response (db : List Nat → Option (List Nat)) (st : AppState)
    (fs : FS) (rel d bytes : List Nat)
    (hdec : urldecodeBytes rel = some d)
    (hmeta : fs.metadata (pathJoin st.root d) = some ⟨false⟩)
    (hread : fs.read (pathJoin st.root d) = some bytes) :
    serve_rel_path db st fs rel =
      { status := 200,
        content_type := first_or_octet_stream (from_path db (pathJoin st.root d)),
        body := bytes }
    ∧ (from_path db (pathJoin st.root d) = none →
        (serve_rel_path db st fs rel).content_type = ascii "application/octet-stream") := by
  have h1 : serve_rel_path db st fs rel =
      { status := 200,
        content_type := first_or_octet_stream (from_path db (pathJoin st.root d)),
        body := bytes } := by
    simp [serve_rel_path, serveCandidate, hdec, hmeta, hread]
  refine ⟨h1, fun hnone => ?_⟩
  rw [h1]
  simp [first_or_octet_stream, hnone]

theorem c1_file_response_witness :
    serve_rel_path db0 st0 fs0 (ascii "a.txt") =
      { status := 200, content_type := ascii "text/plain", body := ascii "hi" } ∧
    serve_rel_path db0 st0 fs0 (ascii "blob.xyz") =
      { status := 200, content_type := ascii "application/octet-stream", body := [0, 255, 1] } :=
  ⟨((c1_file_response db0 st0 fs0 (ascii "a.txt") (ascii "a.txt") (ascii "hi")
      (by decide) (by decide) (by decide)).1).trans (by decide),
   ((c1_file_response db0 st0 fs0 (ascii "blob.xyz") (ascii "blob.xyz") [0, 255, 1]
      (by decide) (by decide) (by decide)).1).trans (by decide)⟩

/-- C5: the handler's error statuses are exactly 400 for a failed decode, 404
for a failed metadata query, and 403 for a file whose bytes cannot be read or
a directory that cannot be enumerated; every response carries one of the
statuses 200, 400, 403, 404, so no other error status is produced. -/
theorem c5_status_mapping (db : List Nat → Option (List Nat)) (st : AppState)
    (fs : FS) (rel : List Nat) :
    ((serve_rel_path db st fs rel).status = 200 ∨ (serve_rel_path db st fs rel).status = 400 ∨
      (serve_rel_path db st fs rel).status = 403 ∨ (serve_rel_path db st fs rel).status = 404)
    ∧ ((serve_rel_path db st fs rel).status = 400 ↔ urldecodeBytes rel = none)
    ∧ ((serve_rel_path db st fs rel).status = 404 ↔
        ∃ d, urldecodeBytes rel = some d ∧ fs.metadata (pathJoin st.root d) = none)
    ∧ ((serve_rel_path db st fs rel).status = 403 ↔
        ∃ d, urldecodeBytes rel = some d ∧
          ((∃ m, fs.metadata (pathJoin st.root d) = some m ∧ m.is_dir = false ∧
              fs.read (pathJoin st.root d) = none)
            ∨ (∃ m, fs.metadata (pathJoin st.root d) = some m ∧ m.is_dir = true ∧
              fs.read_dir (pathJoin st.root d) = none))) := by
  cases hdec : urldecodeBytes rel with
  | none =>
    simp [serve_rel_path, hdec, badRequestResp]
  | some d =>
    cases hmeta : fs.metadata (pathJoin st.root d) with
    | none =>
      simp [serve_rel_path, serveCandidate, hdec, hmeta, notFoundResp]
    | some m =>
      cases hdir : m.is_dir with
      | false =>
        cases hread : fs.read (pathJoin st.root d) with
        | none =>
          simp [serve_rel_path, serveCandidate, hdec, hmeta, hdir, hread, cannotReadFileResp]
        | some bytes =>
          simp [serve_rel_path, serveCandidate, hdec, hmeta, hdir, hread]
      | true =>
        cases hrd : fs.read_dir (pathJoin st.root d) with
        | none =>
          simp [serve_rel_path, serveCandidate, list_dir, hdec, hmeta, hdir, hrd,
            cannotReadDirResp]
        | some es =>
          simp [serve_rel_path, serveCandidate, list_dir, hdec, hmeta, hdir, hrd]

theorem c5_status_mapping_witness :
    (serve_rel_path db0 st0 fs0 (ascii "nope")).status = 404 ∧
    (serve_rel_path db0 st0 fs0 (ascii "locked.txt")).status = 403 ∧
    (serve_rel_path db0 st0 fs0 (ascii "ndir")).status = 403 ∧
    (serve_rel_path db0 st0 fs0 (ascii "%FF")).status = 400 :=
  ⟨(c5_status_mapping db0 st0 fs0 (ascii "nope")).2.2.1.mpr
      ⟨ascii "nope", by decide, by decide⟩,
   (c5_status_mapping db0 st0 fs0 (ascii "locked.txt")).2.2.2.mpr
      ⟨ascii "locked.txt", by decide, Or.inl ⟨⟨false⟩, by decide, rfl, by decide⟩⟩,
   (c5_status_mapping db0 st0 fs0 (ascii "ndir")).2.2.2.mpr
      ⟨ascii "ndir", by decide, Or.inr ⟨⟨true⟩, by decide, rfl, by decide⟩⟩,
   (c5_status_mapping db0 st0 fs0 (ascii "%FF")).2.1.mpr (by decide)⟩

/-- C6 as stated fails on the code: the segment with bytes of the string made
of a percent sign and two letters z contains invalid percent-encoding, yet
decoding succeeds because the urlencoding crate passes malformed sequences
through literally, and the handler goes on to query the filesystem and
answers 404, not 400. -/
theorem c6_counterexample :
    hasInvalidPercent (ascii "%zz") = true ∧
    urldecodeBytes (ascii "%zz") = some (ascii "%zz") ∧
    serve_rel_path db0 st0 fs0 (ascii "%zz") = notFoundResp ∧
    (serve_rel_path db0 st0 fs0 (ascii "%zz")).status ≠ 400 := by
  refine ⟨by decide, by decide, by decide, by decide⟩

/-- C6 amended: a request whose raw segment fails to decode, which happens
exactly when the percent-decoded bytes are not valid UTF-8, is answered with
the constant 400 response; the answer is the same for every filesystem, so
the filesystem is not touched. Malformed percent sequences whose literal
pass-through is still valid UTF-8 do not fail and are not answered with
400. -/
theorem c6_bad_decode_gives_400 (db : List Nat → Option (List Nat)) (st : AppState)
    (fs : FS) (rel : List Nat) (h : urldecodeBytes rel = none) :
    serve_rel_path db st fs rel = badRequestResp := by
  simp [serve_rel_path, h]

theorem c6_bad_decode_gives_400_witness :
    serve_rel_path db0 st0 fs0 (ascii "%FF") = badRequestResp :=
  c6_bad_decode_gives_400 db0 st0 fs0 (ascii "%FF") (by decide)

/-- C8: for a decoded non-absolute, nonempty segment and a canonical root
(nonempty, no trailing separator), the candidate is literally the root, a
separator, and the decoded bytes unchanged, dot and dot-dot segments
included, and the rest of the handler runs on exactly that path. -/
theorem c8_join_unfiltered (db : List Nat → Option (List Nat)) (st : AppState)
    (fs : FS) (rel d : List Nat)
    (hdec : urldecodeBytes rel = some d)
    (habs : d.head? ≠ some 47)
    (hroot : st.root ≠ []) (hsep : st.root.getLast? ≠ some 47) :
    pathJoin st.root d = st.root ++ 47 :: d ∧
    serve_rel_path db st fs rel = serveCandidate db fs st.root (st.root ++ 47 :: d) := by
  have hj : pathJoin st.root d = st.root ++ 47 :: d := by
    unfold pathJoin
    rw [if_neg habs, if_neg (not_or.mpr ⟨hroot, hsep⟩)]
  refine ⟨hj, ?_⟩
  simp only [serve_rel_path, hdec]
  rw [hj]

theorem c8_join_unfiltered_witness :
    pathJoin st0.root (ascii "../..") = st0.root ++ 47 :: ascii "../.." ∧
    serve_rel_path db0 st0 fs0 (ascii "..%2F..") =
      serveCandidate db0 fs0 st0.root (st0.root ++ 47 :: ascii "../..") :=
  c8_join_unfiltered db0 st0 fs0 (ascii "..%2F..") (ascii "../..")
    (by decide) (by decide) (by decide) (by decide)

/-! ## Escaping lemmas -/

theorem html_escape_append (x y : List Nat) :
    html_escape (x ++ y) = html_escape x ++ html_escape y := by
  simp [html_escape, replaceByte, List.flatMap_append]

theorem html_escape_single (b : Nat) : html_escape [b] = escapeByteSpec b := by
  by_cases h38 : b = 38
  · subst h38; decide
  · by_cases h60 : b = 60
    · subst h60; decide
    · by_cases h62 : b = 62
      · subst h62; decide
      · by_cases h34 : b = 34
        · subst h34; decide
        · by_cases h39 : b = 39
          · subst h39; decide
          · simp [html_escape, replaceByte, escapeByteSpec, h38, h60, h62, h34, h39]

theorem html_escape_eq_flatMap (s : List Nat) :
    html_escape s = s.flatMap escapeByteSpec := by
  induction s with
  | nil => rfl
  | cons b bs ih =>
    have hcons : b :: bs = [b] ++ bs := rfl
    rw [hcons, html_escape_append, ih, html_escape_single]
    rfl

set_option maxHeartbeats 2000000 in
theorem wellEscaped_cons_plain (b : Nat) (t : List Nat) (h38 : b ≠ 38) (h60 : b ≠ 60)
    (h62 : b ≠ 62) (h34 : b ≠ 34) (h39 : b ≠ 39) :
    wellEscaped (b :: t) = wellEscaped t := by
  rw [wellEscaped.eq_def]
  simp [h38, h60, h62, h34, h39]

theorem wellEscaped_flatMap (s : List Nat) :
    wellEscaped (s.flatMap escapeByteSpec) = true := by
  induction s with
  | nil => rfl
  | cons b bs ih =>
    rw [List.flatMap_cons]
    by_cases h38 : b = 38
    · subst h38; exact ih
    · by_cases h60 : b = 60
      · subst h60; exact ih
      · by_cases h62 : b = 62
        · subst h62; exact ih
        · by_cases h34 : b = 34
          · subst h34; exact ih
          · by_cases h39 : b = 39
            · subst h39; exact ih
            · have hpiece : escapeByteSpec b = [b] := by
                simp [escapeByteSpec, h38, h60, h62, h34, h39]
              rw [hpiece, List.singleton_append,
                wellEscaped_cons_plain b _ h38 h60 h62 h34 h39]
              exact ih

set_option maxHeartbeats 2000000 in
theorem unescapeSpec_cons_plain (b : Nat) (t : List Nat) (h38 : b ≠ 38) :
    unescapeSpec (b :: t) = b :: unescapeSpec t := by
  rw [unescapeSpec.eq_def]
  simp [h38]

theorem unescapeSpec_flatMap (s : List Nat) :
    unescapeSpec (s.flatMap escapeByteSpec) = s := by
  induction s with
  | nil => rfl
  | cons b bs ih =>
    rw [List.flatMap_cons]
    by_cases h38 : b = 38
    · subst h38
      show 38 :: unescapeSpec (bs.flatMap escapeByteSpec) = 38 :: bs
      rw [ih]
    · by_cases h60 : b = 60
      · subst h60
        show 60 :: unescapeSpec (bs.flatMap escapeByteSpec) = 60 :: bs
        rw [ih]
      · by_cases h62 : b = 62
        · subst h62
          show 62 :: unescapeSpec (bs.flatMap escapeByteSpec) = 62 :: bs
          rw [ih]
        · by_cases h34 : b = 34
          · subst h34
            show 34 :: unescapeSpec (bs.flatMap escapeByteSpec) = 34 :: bs
            rw [ih]
          · by_cases h39 : b = 39
            · subst h39
              show 39 :: unescapeSpec (bs.flatMap escapeByteSpec) = 39 :: bs
              rw [ih]
            · have hpiece : escapeByteSpec b = [b] := by
                simp [escapeByteSpec, h38, h60, h62, h34, h39]
              rw [hpiece, List.singleton_append, unescapeSpec_cons_plain b _ h38, ih]

/-- C2: the label rendered for an entry is the display name with each of the
five HTML-significant bytes replaced by its entity and every other byte kept
(the sequential replacements of html_escape agree with the simultaneous
per-character escaping), and the result contains no raw angle bracket or
quote and only ampersands that start one of the five entities. -/
theorem c2_label_escaped (name : List Nat) (isdir : Bool) :
    html_escape (entryDisplay (name, isdir)) =
      (entryDisplay (name, isdir)).flatMap escapeByteSpec ∧
    wellEscaped (html_escape (entryDisplay (name, isdir))) = true := by
  refine ⟨html_escape_eq_flatMap _, ?_⟩
  rw [html_escape_eq_flatMap]
  exact wellEscaped_flatMap _

/-- C10: html_escape is injective, so two distinct entry names never render
to the same displayed label. -/
theorem c10_escape_injective (s1 s2 : List Nat)
    (h : html_escape s1 = html_escape s2) : s1 = s2 := by
  rw [html_escape_eq_flatMap, html_escape_eq_flatMap] at h
  have h2 := congrArg unescapeSpec h
  rwa [unescapeSpec_flatMap, unescapeSpec_flatMap] at h2

theorem c10_escape_injective_witness :
    html_escape (ascii "a&<b") = html_escape (ascii "a&<b") ∧
    ascii "a&<b" = ascii "a&<b" :=
  ⟨rfl, c10_escape_injective (ascii "a&<b") (ascii "a&<b") rfl⟩

/-- C3: percent-decoding inverts the href encoding of an entry name exactly:
decoding the encoded name gives back the name, for every name whose bytes
are bytes (below 256) and valid UTF-8, as names produced by to_string_lossy
always are; for a directory entry the href carries a trailing slash and
decodes to the name followed by that slash. -/
theorem c3_href_roundtrip (name : List Nat) (isdir : Bool)
    (hv : utf8Valid name = true) (hn : ∀ b ∈ name, b < 256) :
    urldecodeBytes (urlencodeBytes name) = some name ∧
    urldecodeBytes (entryHref (name, isdir)) =
      some (if isdir then name ++ ascii "/" else name) := by
  refine ⟨urldecode_urlencode name hv hn, ?_⟩
  cases isdir with
  | false => simpa [entryHref] using urldecode_urlencode name hv hn
  | true => simpa [entryHref] using urldecode_urlencode_slash name hv hn

theorem c3_href_roundtrip_witness :
    urldecodeBytes (urlencodeBytes (ascii "a b%#.txt")) = some (ascii "a b%#.txt") ∧
    urldecodeBytes (entryHref (ascii "a b%#.txt", true)) =
      some (ascii "a b%#.txt" ++ ascii "/") :=
  ⟨(c3_href_roundtrip (ascii "a b%#.txt") true (by decide) (by decide)).1,
   (c3_href_roundtrip (ascii "a b%#.txt") true (by decide) (by decide)).2⟩

/-! ## Sorting lemmas -/

theorem lexLt_trans : ∀ (x y z : List Nat), lexLt x y = true → lexLt y z = true →
    lexLt x z = true := by
  intro x
  induction x with
  | nil =>
    intro y z hxy hyz
    cases y with
    | nil => simp [lexLt] at hxy
    | cons b bs =>
      cases z with
      | nil => simp [lexLt] at hyz
      | cons c cs => simp [lexLt]
  | cons a as ih =>
    intro y z hxy hyz
    cases y with
    | nil => simp [lexLt] at hxy
    | cons b bs =>
      cases z with
      | nil => simp [lexLt] at hyz
      | cons c cs =>
        simp only [lexLt, Bool.or_eq_true, Bool.and_eq_true, decide_eq_true_eq,
          beq_iff_eq] at hxy hyz ⊢
        rcases hxy with h1 | ⟨rfl, h1⟩
        · rcases hyz with h2 | ⟨rfl, h2⟩
          · exact Or.inl (Nat.lt_trans h1 h2)
          · exact Or.inl h1
        · rcases hyz with h2 | ⟨rfl, h2⟩
          · exact Or.inl h2
          · exact Or.inr ⟨rfl, ih bs cs h1 h2⟩

theorem lexLt_asymm : ∀ (x y : List Nat), lexLt x y = true → lexLt y x = true → False := by
  intro x
  induction x with
  | nil => intro y h1 h2; cases y <;> simp [lexLt] at h1 h2
  | cons a as ih =>
    intro y h1 h2
    cases y with
    | nil => simp [lexLt] at h1
    | cons b bs =>
      simp only [lexLt, Bool.or_eq_true, Bool.and_eq_true, decide_eq_true_eq,
        beq_iff_eq] at h1 h2
      rcases h1 with h1 | ⟨rfl, h1⟩
      · rcases h2 with h2 | ⟨rfl, h2⟩
        · omega
        · omega
      · rcases h2 with h2 | ⟨h2e, h2⟩
        · omega
        · exact ih bs h1 h2

theorem lexLt_total : ∀ (x y : List Nat), lexLt x y = true ∨ x = y ∨ lexLt y x = true := by
  intro x
  induction x with
  | nil =>
    intro y
    cases y with
    | nil => exact Or.inr (Or.inl rfl)
    | cons b bs => exact Or.inl (by simp [lexLt])
  | cons a as ih =>
    intro y
    cases y with
    | nil => exact Or.inr (Or.inr (by simp [lexLt]))
    | cons b bs =>
      rcases Nat.lt_trichotomy a b with h | rfl | h
      · exact Or.inl (by simp [lexLt, h])
      · rcases ih bs with h2 | rfl | h2
        · exact Or.inl (by simp [lexLt, h2])
        · exact Or.inr (Or.inl rfl)
        · exact Or.inr (Or.inr (by simp [lexLt, h2]))
      · exact Or.inr (Or.inr (by simp [lexLt, h]))

theorem itemLe_trans (a b c : List Nat × Bool) (h1 : itemLe a b = true)
    (h2 : itemLe b c = true) : itemLe a c = true := by
  unfold itemLe lexLe at h1 h2 ⊢
  simp only [Bool.or_eq_true, beq_iff_eq] at h1 h2 ⊢
  rcases h1 with h1 | h1
  · rcases h2 with h2 | h2
    · exact Or.inl (lexLt_trans _ _ _ h1 h2)
    · exact Or.inl (by rw [← h2]; exact h1)
  · rcases h2 with h2 | h2
    · exact Or.inl (by rw [h1]; exact h2)
    · exact Or.inr (h1.trans h2)

theorem itemLe_of_lt (a b : List Nat × Bool) (h : lexLt a.1 b.1 = true) :
    itemLe a b = true := by
  simp [itemLe, lexLe, h]

theorem itemLe_of_not_lt (a b : List Nat × Bool) (h : ¬ lexLt b.1 a.1 = true) :
    itemLe a b = true := by
  rcases lexLt_total a.1 b.1 with h2 | h2 | h2
  · exact itemLe_of_lt a b h2
  · simp [itemLe, lexLe, h2]
  · exact absurd h2 h

theorem insertItem_perm (a : List Nat × Bool) (l : List (List Nat × Bool)) :
    (insertItem a l).Perm (a :: l) := by
  induction l with
  | nil => exact List.Perm.refl _
  | cons b bs ih =>
    unfold insertItem
    by_cases h : lexLt b.1 a.1 = true
    · rw [if_pos h]
      exact (List.Perm.cons b ih).trans (List.Perm.swap a b bs)
    · rw [if_neg h]

theorem sortItems_perm (l : List (List Nat × Bool)) : (sortItems l).Perm l := by
  induction l with
  | nil => exact List.Perm.refl _
  | cons a as ih => exact (insertItem_perm a (sortItems as)).trans (List.Perm.cons a ih)

theorem insertItem_pairwise (a : List Nat × Bool) (l : List (List Nat × Bool))
    (h : List.Pairwise (fun u v => itemLe u v = true) l) :
    List.Pairwise (fun u v => itemLe u v = true) (insertItem a l) := by
  induction l with
  | nil => simp [insertItem]
  | cons b bs ih =>
    cases h with
    | cons hb hbs =>
      unfold insertItem
      by_cases hlt : lexLt b.1 a.1 = true
      · rw [if_pos hlt]
        refine List.Pairwise.cons ?_ (ih hbs)
        intro x hx
        rcases List.mem_cons.mp ((insertItem_perm a bs).mem_iff.mp hx) with hxa | hxbs
        · subst hxa
          exact itemLe_of_lt b x hlt
        · exact hb x hxbs
      · rw [if_neg hlt]
        refine List.Pairwise.cons ?_ (List.Pairwise.cons hb hbs)
        intro x hx
        rcases List.mem_cons.mp hx with hxb | hxbs
        · subst hxb
          exact itemLe_of_not_lt a x hlt
        · exact itemLe_trans a b x (itemLe_of_not_lt a b hlt) (hb x hxbs)

theorem sortItems_sorted (l : List (List Nat × Bool)) :
    List.Pairwise (fun u v => itemLe u v = true) (sortItems l) := by
  induction l with
  | nil => simp [sortItems]
  | cons a as ih => exact insertItem_pairwise a (sortItems as) ih

theorem sortItems_eq_of_perm (l1 l2 : List (List Nat × Bool))
    (hperm : l1.Perm l2) (hnodup : (l1.map Prod.fst).Nodup) :
    sortItems l1 = sortItems l2 := by
  haveI : IsAntisymm (List Nat × Bool) (fun u v => lexLt u.1 v.1 = true) :=
    ⟨fun u v h1 h2 => (lexLt_asymm u.1 v.1 h1 h2).elim⟩
  have hp : (sortItems l1).Perm (sortItems l2) :=
    ((sortItems_perm l1).trans hperm).trans (sortItems_perm l2).symm
  have hstrict : ∀ (l : List (List Nat × Bool)), (l.map Prod.fst).Nodup →
      List.Pairwise (fun u v => lexLt u.1 v.1 = true) (sortItems l) := by
    intro l hnd
    have hnd2 : (sortItems l).Pairwise (fun u v => u.1 ≠ v.1) := by
      have : ((sortItems l).map Prod.fst).Nodup :=
        (((sortItems_perm l).map Prod.fst).nodup_iff).mpr hnd
      exact (List.pairwise_map.mp this)
    have hle := sortItems_sorted l
    refine (hle.and hnd2).imp ?_
    intro u v huv
    rcases huv with ⟨hle2, hne⟩
    have : itemLe u v = true := hle2
    unfold itemLe lexLe at this
    simp only [Bool.or_eq_true, beq_iff_eq] at this
    rcases this with h | h
    · exact h
    · exact absurd h hne
  exact List.eq_of_perm_of_sorted hp (hstrict l1 hnodup)
    (hstrict l2 (((hperm.map Prod.fst).nodup_iff).mp hnodup))

/-- C4: the rendered entries of a directory listing are sorted by name,
byte-wise ascending and case-sensitive, and the listing does not depend on
the order in which the filesystem enumerates the entries: two filesystems
that return the same entries for the directory in any orders produce
identical responses. -/
theorem c4_sorted_deterministic (fs fs' : FS) (root dir : List Nat)
    (es es' : List FsDirEntry)
    (hrd : fs.read_dir dir = some es) (hrd' : fs'.read_dir dir = some es')
    (hperm : es.Perm es')
    (hnodup : (es.map FsDirEntry.file_name).Nodup) :
    List.Pairwise (fun u v => itemLe u v = true) (sortItems (es.map processEntry)) ∧
    list_dir fs root dir =
      { status := 200, content_type := textHtmlCT,
        body := (listPieces root dir (sortItems (es.map processEntry))).flatten } ∧
    list_dir fs root dir = list_dir fs' root dir := by
  have hnames : (es.map processEntry).map Prod.fst = es.map FsDirEntry.file_name := by
    rw [List.map_map]
    rfl
  have heq : sortItems (es.map processEntry) = sortItems (es'.map processEntry) := by
    apply sortItems_eq_of_perm
    · exact hperm.map processEntry
    · rw [hnames]
      exact hnodup
  refine ⟨sortItems_sorted _, ?_, ?_⟩
  · simp only [list_dir, hrd]
  · simp only [list_dir, hrd, hrd']
    rw [heq]

theorem c4_sorted_deterministic_witness :
    List.Pairwise (fun u v => itemLe u v = true)
      (sortItems (([⟨ascii "sub", some true⟩, ⟨ascii "a.txt", some false⟩,
        ⟨ascii "blob.xyz", some false⟩, ⟨ascii "locked.txt", some false⟩,
        ⟨ascii "ndir", some true⟩] : List FsDirEntry).map processEntry)) ∧
    list_dir fs0 (ascii "/srv") (ascii "/srv/") =
      { status := 200, content_type := textHtmlCT,
        body := (listPieces (ascii "/srv") (ascii "/srv/")
          (sortItems (([⟨ascii "sub", some true⟩, ⟨ascii "a.txt", some false⟩,
            ⟨ascii "blob.xyz", some false⟩, ⟨ascii "locked.txt", some false⟩,
            ⟨ascii "ndir", some true⟩] : List FsDirEntry).map processEntry))).flatten } ∧
    list_dir fs0 (ascii "/srv") (ascii "/srv/") = list_dir fs1 (ascii "/srv") (ascii "/srv/") :=
  c4_sorted_deterministic fs0 fs1 (ascii "/srv") (ascii "/srv/")
    [⟨ascii "sub", some true⟩, ⟨ascii "a.txt", some false⟩,
      ⟨ascii "blob.xyz", some false⟩, ⟨ascii "locked.txt", some false⟩,
      ⟨ascii "ndir", some true⟩]
    [⟨ascii "ndir", some true⟩, ⟨ascii "locked.txt", some false⟩,
      ⟨ascii "blob.xyz", some false⟩, ⟨ascii "a.txt", some false⟩,
      ⟨ascii "sub", some true⟩]
    (by decide) (by decide) (by decide) (by decide)

/-- C9: a child whose file type cannot be determined is processed with
is_dir false and rendered as a plain file entry: no trailing slash is
appended to the displayed label or to the href. -/
theorem c9_unknown_type_plain (e : FsDirEntry) (h : e.file_type = none) :
    processEntry e = (e.file_name, false) ∧
    renderItem (processEntry e) =
      ascii "<li><a href=\x22" ++ urlencodeBytes e.file_name ++ ascii "\x22>"
        ++ html_escape e.file_name ++ ascii "</a></li>" := by
  have h1 : processEntry e = (e.file_name, false) := by simp [processEntry, h]
  refine ⟨h1, ?_⟩
  rw [h1]
  simp [renderItem, entryHref, entryDisplay]

theorem c9_unknown_type_plain_witness :
    processEntry ⟨ascii "mystery", none⟩ = (ascii "mystery", false) ∧
    renderItem (processEntry ⟨ascii "mystery", none⟩) =
      ascii "<li><a href=\x22" ++ urlencodeBytes (ascii "mystery") ++ ascii "\x22>"
        ++ html_escape (ascii "mystery") ++ ascii "</a></li>" :=
  c9_unknown_type_plain ⟨ascii "mystery", none⟩ rfl

/-! ## Up-link lemmas for C7 -/

theorem splitSep_ne_nil : ∀ (l : List Nat), splitSep l ≠ [] := by
  intro l
  cases l with
  | nil => simp [splitSep]
  | cons b bs =>
    unfold splitSep
    by_cases h : b = 47
    · simp [h]
    · rw [if_neg h]
      cases hs : splitSep bs with
      | nil => simp
      | cons s ss => simp

theorem splitSep_append_sep : ∀ (l : List Nat), splitSep (l ++ [47]) = splitSep l ++ [[]] := by
  intro l
  induction l with
  | nil => rfl
  | cons b bs ih =>
    rw [List.cons_append]
    unfold splitSep
    by_cases h : b = 47
    · rw [if_pos h, if_pos h, ih]
      rfl
    · rw [if_neg h, if_neg h, ih]
      cases hs : splitSep bs with
      | nil => exact absurd hs (splitSep_ne_nil bs)
      | cons s ss => simp

theorem components_append_sep (p : List Nat) (hp : p ≠ []) :
    components (p ++ [47]) = components p := by
  unfold components
  rw [splitSep_append_sep]
  have hhead : (p ++ [47]).head? = p.head? := by
    cases p with
    | nil => exact absurd rfl hp
    | cons a as => rfl
  rw [hhead, List.filter_append, List.filter_append]
  simp

theorem pathEq_join_empty (root : List Nat) (hroot : root ≠ []) :
    pathEq (pathJoin root []) root = true := by
  unfold pathJoin
  rw [if_neg (by simp)]
  by_cases h : root = [] ∨ root.getLast? = some 47
  · rw [if_pos h, List.append_nil]
    simp [pathEq]
  · rw [if_neg h]
    simp [pathEq, components_append_sep root hroot]

theorem mem_urlencode_ranges (name : List Nat) :
    ∀ b ∈ urlencodeBytes name, isUnreserved b = true ∨ b = 37 ∨ 48 ≤ b := by
  induction name with
  | nil => simp [urlencodeBytes]
  | cons c cs ih =>
    intro b hb
    rw [urlencodeBytes] at hb
    rcases List.mem_append.mp hb with hfirst | hrest
    · by_cases hu : isUnreserved c
      · rw [if_pos hu] at hfirst
        simp only [List.mem_singleton] at hfirst
        subst hfirst
        exact Or.inl hu
      · rw [if_neg hu] at hfirst
        simp only [List.mem_cons, List.not_mem_nil, or_false] at hfirst
        rcases hfirst with rfl | rfl | rfl
        · exact Or.inr (Or.inl rfl)
        · unfold toHexUpper
          split_ifs <;> exact Or.inr (Or.inr (by omega))
        · unfold toHexUpper
          split_ifs <;> exact Or.inr (Or.inr (by omega))
    · exact ih b hrest

theorem mem_urlencode_ne_34 (name : List Nat) (b : Nat) (hb : b ∈ urlencodeBytes name) :
    b ≠ 34 := by
  intro heq
  subst heq
  rcases mem_urlencode_ranges name 34 hb with h | h | h
  · simp [isUnreserved] at h
  · omega
  · omega

theorem mem_urlencode_ne_47 (name : List Nat) (b : Nat) (hb : b ∈ urlencodeBytes name) :
    b ≠ 47 := by
  intro heq
  subst heq
  rcases mem_urlencode_ranges name 47 hb with h | h | h
  · simp [isUnreserved] at h
  · omega
  · omega

theorem split_at_byte_34 : ∀ (h1 h2 t1 t2 : List Nat),
    (∀ b ∈ h1, b ≠ 34) → (∀ b ∈ h2, b ≠ 34) →
    h1 ++ 34 :: t1 = h2 ++ 34 :: t2 → h1 = h2 ∧ t1 = t2 := by
  intro h1
  induction h1 with
  | nil =>
    intro h2 t1 t2 _ hh2 heq
    cases h2 with
    | nil => simpa using heq
    | cons x xs =>
      simp only [List.nil_append, List.cons_append, List.cons.injEq] at heq
      exact absurd heq.1.symm (hh2 x (by simp))
  | cons y ys ih =>
    intro h2 t1 t2 hh1 hh2 heq
    cases h2 with
    | nil =>
      simp only [List.nil_append, List.cons_append, List.cons.injEq] at heq
      exact absurd heq.1 (hh1 y (by simp))
    | cons x xs =>
      simp only [List.cons_append, List.cons.injEq] at heq
      obtain ⟨rfl, heq2⟩ := heq
      obtain ⟨he, ht⟩ := ih xs t1 t2 (fun b hb => hh1 b (by simp [hb]))
        (fun b hb => hh2 b (by simp [hb])) heq2
      exact ⟨by rw [he], ht⟩

theorem renderItem_ne_upItem (it : List Nat × Bool) (hname : it.1 ≠ ascii "..")
    (hb : ∀ b ∈ it.1, b < 256) : renderItem it ≠ upItem := by
  intro heq
  unfold renderItem at heq
  have hup : upItem = ascii "<li><a href=\x22" ++
      ([46, 46, 47] ++ (34 :: [62, 46, 46, 47, 60, 47, 97, 62, 60, 47, 108, 105, 62])) := by
    decide
  rw [hup] at heq
  simp only [List.append_assoc] at heq
  have heq2 : entryHref it ++ (34 :: (62 :: (html_escape (entryDisplay it)
      ++ ascii "</a></li>"))) =
      [46, 46, 47] ++ (34 :: [62, 46, 46, 47, 60, 47, 97, 62, 60, 47, 108, 105, 62]) :=
    List.append_cancel_left heq
  have hhref_no34 : ∀ b ∈ entryHref it, b ≠ 34 := by
    intro b hmem
    unfold entryHref at hmem
    cases hdir : it.2 with
    | false =>
      rw [hdir] at hmem
      simp only [Bool.false_eq_true, if_false] at hmem
      exact mem_urlencode_ne_34 it.1 b hmem
    | true =>
      rw [hdir] at hmem
      simp only [if_true] at hmem
      rcases List.mem_append.mp hmem with h | h
      · exact mem_urlencode_ne_34 it.1 b h
      · have hslash : ascii "/" = [47] := by decide
        rw [hslash] at h
        simp only [List.mem_singleton] at h
        omega
  have hsplit := split_at_byte_34 (entryHref it) [46, 46, 47] _ _ hhref_no34
    (by intro b hmem; fin_cases hmem <;> simp) heq2
  have hhref : entryHref it = [46, 46, 47] := hsplit.1
  unfold entryHref at hhref
  cases hdir : it.2 with
  | false =>
    rw [hdir] at hhref
    simp only [Bool.false_eq_true, if_false] at hhref
    have : (47 : Nat) ∈ urlencodeBytes it.1 := by rw [hhref]; simp
    exact mem_urlencode_ne_47 it.1 47 this rfl
  | true =>
    rw [hdir] at hhref
    simp only [if_true] at hhref
    have henc : urlencodeBytes it.1 = [46, 46] := by
      have h2 : urlencodeBytes it.1 ++ [47] = [46, 46] ++ [47] := by
        simpa [ascii] using hhref
      exact List.append_cancel_right h2
    have hname2 : it.1 = [46, 46] := by
      have hdec := decodeBinary_encode_append it.1 [] hb
      rw [henc] at hdec
      simpa [decodeBinary_nil] using hdec.symm
    exact hname (by simpa [ascii] using hname2)

/-- C7: when a directory is listed, the response body is the concatenation
of the rendered pieces; the request for the empty segment (the Server Root)
lists a path equal to the root, and the pieces contain the up-link item
exactly zero times when the listed path equals the root and exactly once
otherwise, in which case it sits between the fixed preamble and the sorted
entries. Entry names in a real enumeration are never the dot-dot name (Rust
read_dir omits dot entries) and consist of bytes. -/
theorem c7_uplink (db : List Nat → Option (List Nat)) (st : AppState) (fs : FS)
    (rel d : List Nat) (es : List FsDirEntry)
    (hdec : urldecodeBytes rel = some d)
    (hroot : st.root ≠ [])
    (hmeta : fs.metadata (pathJoin st.root d) = some ⟨true⟩)
    (hrd : fs.read_dir (pathJoin st.root d) = some es)
    (hnames : ∀ e ∈ es, e.file_name ≠ ascii "..")
    (hbytes : ∀ e ∈ es, ∀ b ∈ e.file_name, b < 256) :
    (serve_rel_path db st fs rel).body =
      (listPieces st.root (pathJoin st.root d) (sortItems (es.map processEntry))).flatten ∧
    (rel = [] → pathEq (pathJoin st.root d) st.root = true) ∧
    (listPieces st.root (pathJoin st.root d) (sortItems (es.map processEntry))).count upItem
      = (if pathEq (pathJoin st.root d) st.root = true then 0 else 1) ∧
    (pathEq (pathJoin st.root d) st.root = false →
      listPieces st.root (pathJoin st.root d) (sortItems (es.map processEntry)) =
        headerPieces ++ upItem :: ((sortItems (es.map processEntry)).map renderItem
          ++ [closePiece])) := by
  have hitems : ∀ it ∈ sortItems (es.map processEntry),
      it.1 ≠ ascii ".." ∧ ∀ b ∈ it.1, b < 256 := by
    intro it hit
    have hmem : it ∈ es.map processEntry := (sortItems_perm _).mem_iff.mp hit
    obtain ⟨e, he, hpe⟩ := List.mem_map.mp hmem
    subst hpe
    exact ⟨by simpa [processEntry] using hnames e he,
      by simpa [processEntry] using hbytes e he⟩
  have hcount0 : ((sortItems (es.map processEntry)).map renderItem).count upItem = 0 := by
    rw [List.count_eq_zero]
    intro hmem
    obtain ⟨it, hit, heq⟩ := List.mem_map.mp hmem
    exact renderItem_ne_upItem it (hitems it hit).1 (hitems it hit).2 heq
  refine ⟨?_, ?_, ?_, ?_⟩
  · simp only [serve_rel_path, hdec, serveCandidate, hmeta, list_dir, hrd]
    simp
  · intro hrel
    subst hrel
    have h0 : urldecodeBytes [] = some [] := rfl
    have hd : d = [] := (Option.some.inj (h0.symm.trans hdec)).symm
    subst hd
    exact pathEq_join_empty st.root hroot
  · unfold listPieces
    by_cases hpe : pathEq (pathJoin st.root d) st.root = true
    · rw [if_pos hpe, if_pos hpe]
      simp [List.count_append, hcount0, List.count_eq_zero]
      exact ⟨by decide, by decide⟩
    · rw [if_neg hpe, if_neg hpe]
      simp [List.count_append, hcount0, List.count_cons, List.count_eq_zero]
      decide
  · intro hpe
    unfold listPieces
    rw [hpe]
    simp

theorem c7_uplink_witness :
    (listPieces st0.root (pathJoin st0.root (ascii "sub"))
        (sortItems (([⟨ascii "b.txt", some false⟩, ⟨ascii "mystery", none⟩] :
          List FsDirEntry).map processEntry))).count upItem = 1 ∧
    pathEq (pathJoin st0.root []) st0.root = true :=
  ⟨((c7_uplink db0 st0 fs0 (ascii "sub") (ascii "sub")
      [⟨ascii "b.txt", some false⟩, ⟨ascii "mystery", none⟩]
      (by decide) (by decide) (by decide) (by decide) (by decide) (by decide)).2.2.1).trans
      (by decide),
   (c7_uplink db0 st0 fs0 [] []
      [⟨ascii "sub", some true⟩, ⟨ascii "a.txt", some false⟩,
        ⟨ascii "blob.xyz", some false⟩, ⟨ascii "locked.txt", some false⟩,
        ⟨ascii "ndir", some true⟩]
      (by decide) (by decide) (by decide) (by decide) (by decide) (by decide)).2.1 rfl⟩

end Serveit
